import Mathlib

/-!
# Verification of `crab::StaticRingBuffer` (src/crab/ring_buffer.h)

Shallow embedding of the bounded SPSC ring buffer.  The C++ class
`StaticRingBuffer<T, Capacity>` holds `Capacity` uninitialized slots and two
cyclic indices `m_head` and `m_tail`; slot `i` at offset `i * sizeof(T)` holds
a live `T` exactly when `i` lies in the cyclic interval `[head, tail)`.

Embedding choices:
* The template parameter `Capacity` becomes an explicit `Nat` argument `C`
  of every operation (it is a compile-time constant in the source).
* Storage is `Nat → Option α`: `none` models an uninitialized slot,
  `some v` a slot holding a constructed value.  Placement `new` writes
  `some v`; an explicit destructor call `ptr->~T()` writes `none`.
* The atomic loads/stores collapse to plain field reads/writes: all claims
  settled here are about the single-threaded (sequential) semantics, which is
  the semantics the source has when the two-thread protocol is respected and
  each operation is taken as one atomic step.
* `try_pop` returns the slot's content directly; on every state reachable
  through the API the slot in the live range holds `some v`, matching the
  source where the slot always contains a constructed `T` there.
-/

namespace CrabLib

/-- State of `crab::StaticRingBuffer<T, Capacity>`: the storage block and the
two cyclic indices (source fields `m_storage`, `m_head`, `m_tail`). -/
structure StaticRingBuffer (α : Type) where
  m_storage : Nat → Option α
  m_head : Nat
  m_tail : Nat

namespace StaticRingBuffer

/-- `StaticRingBuffer() noexcept : m_head(0), m_tail(0) {}` — storage left
uninitialized (all slots `none`). -/
def init : StaticRingBuffer α := ⟨fun _ => none, 0, 0⟩

/-- `increment(index) = (index + 1) % Capacity` (private helper). -/
def increment (C index : Nat) : Nat := (index + 1) % C

/-- `bool try_push(const T& value)` — loads `m_tail`, computes `next_tail`,
returns `false` if `next_tail == m_head`, otherwise placement-constructs at
slot `m_tail` and publishes `next_tail`. -/
def try_push (C : Nat) (b : StaticRingBuffer α) (value : α) :
    Bool × StaticRingBuffer α :=
  let current_tail := b.m_tail
  let next_tail := increment C current_tail
  if next_tail = b.m_head then
    (false, b)
  else
    (true, ⟨fun i => if i = current_tail then some value else b.m_storage i,
            b.m_head, next_tail⟩)

/-- `bool try_push(T&& value)` — identical index protocol, constructs by move.
In the value-semantics embedding the constructed element is the same value. -/
def try_push_move (C : Nat) (b : StaticRingBuffer α) (value : α) :
    Bool × StaticRingBuffer α :=
  let current_tail := b.m_tail
  let next_tail := increment C current_tail
  if next_tail = b.m_head then
    (false, b)
  else
    (true, ⟨fun i => if i = current_tail then some value else b.m_storage i,
            b.m_head, next_tail⟩)

/-- `bool try_emplace(Args&&... args)` — identical index protocol; `value` is
the element `T(std::forward<Args>(args)...)` the constructor arguments build. -/
def try_emplace (C : Nat) (b : StaticRingBuffer α) (value : α) :
    Bool × StaticRingBuffer α :=
  let current_tail := b.m_tail
  let next_tail := increment C current_tail
  if next_tail = b.m_head then
    (false, b)
  else
    (true, ⟨fun i => if i = current_tail then some value else b.m_storage i,
            b.m_head, next_tail⟩)

/-- `Option<T> try_pop()` — returns `None` if `m_head == m_tail`, otherwise
moves the value out of slot `m_head`, destroys the slot, and publishes
`increment(head)`.  The returned option is the slot's content (always a
constructed value on reachable states). -/
def try_pop (C : Nat) (b : StaticRingBuffer α) :
    Option α × StaticRingBuffer α :=
  let current_head := b.m_head
  if current_head = b.m_tail then
    (none, b)
  else
    (b.m_storage current_head,
     ⟨fun i => if i = current_head then none else b.m_storage i,
      increment C current_head, b.m_tail⟩)

/-- `const T* front() const` — `nullptr` iff `m_head == m_tail`, otherwise a
pointer to slot `m_head`; the nullable pointer is modelled as the slot's
optional content.  It takes the state and returns only a value: no mutation. -/
def front (b : StaticRingBuffer α) : Option α :=
  let current_head := b.m_head
  if current_head = b.m_tail then
    none
  else
    b.m_storage current_head

/-- `bool is_empty() const` — `m_head == m_tail`. -/
def is_empty (b : StaticRingBuffer α) : Bool := b.m_head == b.m_tail

/-- `bool is_full() const` — `increment(m_tail) == m_head`. -/
def is_full (C : Nat) (b : StaticRingBuffer α) : Bool :=
  increment C b.m_tail == b.m_head

/-- `size_type size_approx() const` — `tail - head` if `tail >= head`,
else `Capacity - head + tail`. -/
def size_approx (C : Nat) (b : StaticRingBuffer α) : Nat :=
  if b.m_tail ≥ b.m_head then b.m_tail - b.m_head
  else C - b.m_head + b.m_tail

/-- `capacity() = Capacity - 1`. -/
def capacity (C : Nat) : Nat := C - 1

/-- The drain loop shared by the destructor and `clear_unsafe`:
`while (head != tail) { slot_ptr(head)->~T(); head = increment(head); }`.
Returns the storage after the explicit destructor calls and the number of
destructor calls made.  `fuel` bounds the iteration count; with
`head, tail < C` the loop terminates within `C` steps, so callers pass `C`. -/
def destroyRange (C : Nat) (storage : Nat → Option α) :
    Nat → Nat → Nat → (Nat → Option α) × Nat
  | _, _, 0 => (storage, 0)
  | head, tail, fuel + 1 =>
    if head = tail then (storage, 0)
    else
      let r := destroyRange C (fun i => if i = head then none else storage i)
        (increment C head) tail fuel
      (r.1, r.2 + 1)

/-- Number of `~T()` calls the destructor `~StaticRingBuffer` makes: it runs
the drain loop over the live range `[head, tail)` (for a type with a
non-trivial destructor, the case destructor accounting is about). -/
def destructorCalls (C : Nat) (b : StaticRingBuffer α) : Nat :=
  (destroyRange C b.m_storage b.m_head b.m_tail C).2

/-- `void clear_unsafe()` — drains the live range exactly as the destructor
does, then stores `0` into both indices.  Returns the new state and the
number of destructor calls made. -/
def clear_unsafe (C : Nat) (b : StaticRingBuffer α) :
    StaticRingBuffer α × Nat :=
  let r := destroyRange C b.m_storage b.m_head b.m_tail C
  (⟨r.1, 0, 0⟩, r.2)

/-- Run a sequence of `try_push` calls, collecting the returned flags. -/
def pushAll (C : Nat) (b : StaticRingBuffer α) :
    List α → List Bool × StaticRingBuffer α
  | [] => ([], b)
  | v :: vs =>
    let r := try_push C b v
    let rest := pushAll C r.2 vs
    (r.1 :: rest.1, rest.2)

/-- Run `n` consecutive `try_pop` calls, collecting the returned options. -/
def popN (C : Nat) (b : StaticRingBuffer α) :
    Nat → List (Option α) × StaticRingBuffer α
  | 0 => ([], b)
  | n + 1 =>
    let r := try_pop C b
    let rest := popN C r.2 n
    (r.1 :: rest.1, rest.2)

/-- One API call, for stating invariants over arbitrary call sequences.
`frontQ`, `isEmptyQ`, `isFullQ`, `sizeQ` are the `const` queries (they return
no new state in the embedding, so they leave the state as is). -/
inductive Op (α : Type) where
  | push : α → Op α
  | pushMove : α → Op α
  | emplace : α → Op α
  | pop : Op α
  | frontQ : Op α
  | isEmptyQ : Op α
  | isFullQ : Op α
  | sizeQ : Op α
  | clear : Op α

/-- The state after one API call. -/
def applyOp (C : Nat) (b : StaticRingBuffer α) : Op α → StaticRingBuffer α
  | .push v => (try_push C b v).2
  | .pushMove v => (try_push_move C b v).2
  | .emplace v => (try_emplace C b v).2
  | .pop => (try_pop C b).2
  | .frontQ => b
  | .isEmptyQ => b
  | .isFullQ => b
  | .sizeQ => b
  | .clear => ( clear_unsafe C b).1

/-- The state after a sequence of API calls. -/
def runOps (C : Nat) (b : StaticRingBuffer α) (ops : List (Op α)) :
    StaticRingBuffer α :=
  ops.foldl (applyOp C) b

/-- Abstraction relation: the buffer `b` holds exactly the values `vs`, in
FIFO order, starting at cyclic position `start`.  Slots outside the live
range are unconstrained (they may hold stale junk, as in the source). -/
def Seg (C start : Nat) (vs : List α) (b : StaticRingBuffer α) : Prop :=
  b.m_head = start % C ∧
  b.m_tail = (start + vs.length) % C ∧
  ∀ j (h : j < vs.length), b.m_storage ((start + j) % C) = some vs[j]

end StaticRingBuffer

namespace StaticRingBuffer

/-! ## Modular index arithmetic -/

lemma mod_succ (C s : Nat) : (s % C + 1) % C = (s + 1) % C := by
  conv_rhs => rw [Nat.add_mod]
  rw [Nat.add_mod (s % C) 1 C, Nat.mod_mod_of_dvd s dvd_rfl]

lemma add_mod_ne (C s m : Nat) (hm0 : 0 < m) (hmC : m < C) :
    (s + m) % C ≠ s % C := by
  have hC : 0 < C := lt_trans hm0 hmC
  intro h
  rw [Nat.add_mod, Nat.mod_eq_of_lt hmC] at h
  have ha : s % C < C := Nat.mod_lt _ hC
  rcases Nat.lt_or_ge (s % C + m) C with hlt | hge
  · rw [Nat.mod_eq_of_lt hlt] at h
    omega
  · have h2 : (s % C + m) % C = s % C + m - C := by
      rw [Nat.mod_eq_sub_mod hge, Nat.mod_eq_of_lt (by omega)]
    rw [h2] at h
    omega

lemma add_mod_ne_of_lt (C s i j : Nat) (hij : i < j) (hj : j - i < C) :
    (s + i) % C ≠ (s + j) % C := by
  have hrw : s + j = (s + i) + (j - i) := by omega
  rw [hrw]
  exact (add_mod_ne C (s + i) (j - i) (by omega) hj).symm

/-! ## Segment lemmas: how each operation acts on the abstraction -/

lemma seg_try_push (C start : Nat) (vs : List α) (v : α)
    (b : StaticRingBuffer α) (hC : 2 ≤ C) (hlen : vs.length + 1 ≤ C - 1)
    (hseg : Seg C start vs b) :
    (try_push C b v).1 = true ∧ Seg C start (vs ++ [v]) (try_push C b v).2 := by
  obtain ⟨hh, ht, hs⟩ := hseg
  have hinc : increment C b.m_tail = (start + (vs.length + 1)) % C := by
    rw [ht, increment, mod_succ]
    rfl
  have hne : increment C b.m_tail ≠ b.m_head := by
    rw [hinc, hh]
    exact add_mod_ne C start (vs.length + 1) (by omega) (by omega)
  have hpush : try_push C b v =
      (true, ⟨fun i => if i = b.m_tail then some v else b.m_storage i,
              b.m_head, increment C b.m_tail⟩) := by
    simp only [try_push, if_neg hne]
  rw [hpush]
  refine ⟨rfl, hh, ?_, ?_⟩
  · simpa [List.length_append] using hinc
  · intro j hj
    simp only [List.length_append, List.length_cons, List.length_nil] at hj
    dsimp only
    rcases Nat.lt_or_ge j vs.length with hjl | hjr
    · have hne2 : (start + j) % C ≠ b.m_tail := by
        rw [ht]
        exact add_mod_ne_of_lt C start j vs.length hjl (by omega)
      rw [if_neg hne2, hs j hjl, List.getElem_append_left hjl]
    · have hj' : j = vs.length := by omega
      subst hj'
      rw [if_pos (by rw [ht])]
      rw [List.getElem_concat_length _ _ _ rfl]

lemma seg_try_push_full (C start : Nat) (vs : List α) (v : α)
    (b : StaticRingBuffer α) (hC : 2 ≤ C) (hlen : vs.length = C - 1)
    (hseg : Seg C start vs b) :
    try_push C b v = (false, b) := by
  obtain ⟨hh, ht, _⟩ := hseg
  have heq : increment C b.m_tail = b.m_head := by
    rw [ht, increment, mod_succ, hh, hlen]
    have : start + (C - 1) + 1 = start + C := by omega
    rw [this, Nat.add_mod_right]
  simp only [try_push, if_pos heq]

lemma seg_try_pop (C start : Nat) (vs : List α) (v : α)
    (b : StaticRingBuffer α) (hC : 2 ≤ C) (hlen : vs.length + 1 ≤ C - 1)
    (hseg : Seg C start (v :: vs) b) :
    (try_pop C b).1 = some v ∧ Seg C (start + 1) vs (try_pop C b).2 := by
  obtain ⟨hh, ht, hs⟩ := hseg
  simp only [List.length_cons] at ht
  have hne : b.m_head ≠ b.m_tail := by
    rw [hh, ht]
    exact (add_mod_ne C start (vs.length + 1) (by omega) (by omega)).symm
  have hv : b.m_storage b.m_head = some v := by
    have := hs 0 (by simp)
    simpa [hh] using this
  have hpop : try_pop C b =
      (b.m_storage b.m_head,
       ⟨fun i => if i = b.m_head then none else b.m_storage i,
        increment C b.m_head, b.m_tail⟩) := by
    simp only [try_pop, if_neg hne]
  rw [hpop]
  refine ⟨hv, ?_, ?_, ?_⟩
  · dsimp only
    rw [hh, increment, mod_succ]
  · dsimp only
    rw [ht]
    congr 1
    omega
  · intro j hj
    dsimp only
    have hne2 : (start + 1 + j) % C ≠ b.m_head := by
      rw [hh]
      have hrw : start + 1 + j = start + (1 + j) := by omega
      rw [hrw]
      exact add_mod_ne C start (1 + j) (by omega) (by omega)
    rw [if_neg hne2]
    have := hs (j + 1) (by simpa using Nat.succ_lt_succ hj)
    have hrw : start + (j + 1) = start + 1 + j := by omega
    rw [hrw] at this
    rw [this, List.getElem_cons_succ]

lemma seg_try_pop_empty (C start : Nat) (b : StaticRingBuffer α)
    (hseg : Seg C start ([] : List α) b) :
    try_pop C b = (none, b) := by
  obtain ⟨hh, ht, _⟩ := hseg
  have heq : b.m_head = b.m_tail := by rw [hh, ht]; simp
  simp only [try_pop, if_pos heq]

lemma seg_pushAll (C start : Nat) (vs0 vs : List α) (b : StaticRingBuffer α)
    (hC : 2 ≤ C) (hlen : vs0.length + vs.length ≤ C - 1)
    (hseg : Seg C start vs0 b) :
    (pushAll C b vs).1 = List.replicate vs.length true ∧
      Seg C start (vs0 ++ vs) (pushAll C b vs).2 := by
  induction vs generalizing vs0 b with
  | nil => simpa [pushAll] using hseg
  | cons v vs ih =>
    simp only [List.length_cons] at hlen
    obtain ⟨hok, hseg1⟩ := seg_try_push C start vs0 v b hC (by omega) hseg
    obtain ⟨hoks, hseg2⟩ := ih (vs0 ++ [v]) (try_push C b v).2
      (by simp only [List.length_append, List.length_cons, List.length_nil]; omega)
      hseg1
    simp only [pushAll]
    refine ⟨?_, ?_⟩
    · rw [hok, hoks, List.length_cons, List.replicate_succ]
    · simpa [List.append_assoc] using hseg2

lemma seg_popN (C : Nat) (n : Nat) :
    ∀ (start : Nat) (vs : List α) (b : StaticRingBuffer α), 2 ≤ C →
      vs.length ≤ C - 1 → n ≤ vs.length → Seg C start vs b →
      (popN C b n).1 = (vs.take n).map some ∧
        Seg C (start + n) (vs.drop n) (popN C b n).2 := by
  induction n with
  | zero =>
    intro start vs b _ _ _ hseg
    simpa [popN] using hseg
  | succ n ih =>
    intro start vs b hC hlen hn hseg
    match vs with
    | [] => simp at hn
    | v :: tl =>
      simp only [List.length_cons] at hlen hn
      obtain ⟨hv, hseg1⟩ := seg_try_pop C start tl v b hC (by omega) hseg
      obtain ⟨hos, hseg2⟩ := ih (start + 1) tl (try_pop C b).2 hC
        (by omega) (by omega) hseg1
      simp only [popN]
      refine ⟨?_, ?_⟩
      · rw [hv, hos, List.take_succ_cons, List.map_cons]
      · rw [List.drop_succ_cons]
        have hrw : start + (n + 1) = start + 1 + n := by omega
        rw [hrw]
        exact hseg2

lemma destroyRange_count (C : Nat) (_hC : 2 ≤ C) :
    ∀ (len start fuel : Nat) (s : Nat → Option α), len < C → len ≤ fuel →
      (destroyRange C s (start % C) ((start + len) % C) fuel).2 = len := by
  intro len
  induction len with
  | zero =>
    intro start fuel s _ _
    match fuel with
    | 0 => rfl
    | fuel + 1 => simp [destroyRange]
  | succ d ih =>
    intro start fuel s hlt hfuel
    match fuel with
    | 0 => omega
    | fuel + 1 =>
      have hne : start % C ≠ (start + (d + 1)) % C :=
        (add_mod_ne C start (d + 1) (by omega) hlt).symm
      simp only [destroyRange, if_neg hne]
      have hrw1 : increment C (start % C) = (start + 1) % C := by
        rw [increment, mod_succ]
      have hrw2 : (start + (d + 1)) % C = (start + 1 + d) % C := by
        congr 1
        omega
      rw [hrw1, hrw2, ih (start + 1) fuel _ (by omega) (by omega)]

lemma seg_destructorCalls (C start : Nat) (vs : List α)
    (b : StaticRingBuffer α) (hC : 2 ≤ C) (hlen : vs.length ≤ C - 1)
    (hseg : Seg C start vs b) :
    destructorCalls C b = vs.length := by
  obtain ⟨hh, ht, _⟩ := hseg
  unfold destructorCalls
  rw [hh, ht]
  exact destroyRange_count C hC vs.length start C b.m_storage (by omega) (by omega)

lemma seg_init (C : Nat) (_hC : 2 ≤ C) :
    Seg C 0 ([] : List α) (init : StaticRingBuffer α) := by
  refine ⟨?_, ?_, ?_⟩
  · simp [init]
  · simp [init]
  · intro j hj
    simp at hj

lemma seg_of_empty (C : Nat) (b : StaticRingBuffer α) (_hC : 2 ≤ C)
    (hempty : b.m_head = b.m_tail) (hh : b.m_head < C) :
    Seg C b.m_head ([] : List α) b := by
  refine ⟨?_, ?_, ?_⟩
  · exact (Nat.mod_eq_of_lt hh).symm
  · rw [← hempty, List.length_nil, Nat.add_zero]
    exact (Nat.mod_eq_of_lt hh).symm
  · intro j hj
    simp at hj

lemma applyOp_indices (C : Nat) (hC : 0 < C) (b : StaticRingBuffer α)
    (op : Op α) (hh : b.m_head < C) (ht : b.m_tail < C) :
    (applyOp C b op).m_head < C ∧ (applyOp C b op).m_tail < C := by
  cases op with
  | push v =>
    simp only [applyOp, try_push]
    split
    · exact ⟨hh, ht⟩
    · exact ⟨hh, Nat.mod_lt _ hC⟩
  | pushMove v =>
    simp only [applyOp, try_push_move]
    split
    · exact ⟨hh, ht⟩
    · exact ⟨hh, Nat.mod_lt _ hC⟩
  | emplace v =>
    simp only [applyOp, try_emplace]
    split
    · exact ⟨hh, ht⟩
    · exact ⟨hh, Nat.mod_lt _ hC⟩
  | pop =>
    simp only [applyOp, try_pop]
    split
    · exact ⟨hh, ht⟩
    · exact ⟨Nat.mod_lt _ hC, ht⟩
  | frontQ => exact ⟨hh, ht⟩
  | isEmptyQ => exact ⟨hh, ht⟩
  | isFullQ => exact ⟨hh, ht⟩
  | sizeQ => exact ⟨hh, ht⟩
  | clear => exact ⟨hC, hC⟩

lemma runOps_indices (C : Nat) (hC : 0 < C) (ops : List (Op α)) :
    ∀ (b : StaticRingBuffer α), b.m_head < C → b.m_tail < C →
      (runOps C b ops).m_head < C ∧ (runOps C b ops).m_tail < C := by
  induction ops with
  | nil => intro b hh ht; exact ⟨hh, ht⟩
  | cons op ops ih =>
    intro b hh ht
    obtain ⟨hh1, ht1⟩ := applyOp_indices C hC b op hh ht
    exact ih (applyOp C b op) hh1 ht1

end StaticRingBuffer

namespace Claims

open StaticRingBuffer

/-! ## Intermediate states of the worked example (Capacity 4, usable 3) -/

def wx0 : StaticRingBuffer Nat := init
def wx1 : Bool × StaticRingBuffer Nat := try_push 4 wx0 1
def wx2 : Bool × StaticRingBuffer Nat := try_push 4 wx1.2 2
def wx3 : Bool × StaticRingBuffer Nat := try_push 4 wx2.2 3
def wx4 : Bool × StaticRingBuffer Nat := try_push 4 wx3.2 4
def wx5 : Option Nat × StaticRingBuffer Nat := try_pop 4 wx4.2
def wx6 : Bool × StaticRingBuffer Nat := try_push 4 wx5.2 4
def wx7 : Option Nat × StaticRingBuffer Nat := try_pop 4 wx6.2
def wx8 : Option Nat × StaticRingBuffer Nat := try_pop 4 wx7.2
def wx9 : Option Nat × StaticRingBuffer Nat := try_pop 4 wx8.2
def wx10 : Option Nat × StaticRingBuffer Nat := try_pop 4 wx9.2

/-- C3: Worked example with Capacity 4 (usable 3): push(1), push(2), push(3)
return true; push(4) returns false; pop() returns Some(1); push(4) then
returns true; the next three pops return Some(2), Some(3), Some(4); a further
pop returns None. -/
theorem worked_example :
    wx1.1 = true ∧ wx2.1 = true ∧ wx3.1 = true ∧ wx4.1 = false ∧
    wx5.1 = some 1 ∧ wx6.1 = true ∧ wx7.1 = some 2 ∧ wx8.1 = some 3 ∧
    wx9.1 = some 4 ∧ wx10.1 = none := by
  decide

/-- C4: Failure atomicity: `try_push`/`try_push` (move)/`try_emplace` on a
full buffer (next tail index equals head) return false with the whole state
unchanged and no element constructed; `try_pop` and `front` on an empty
buffer (head equals tail) return the empty optional with the state unchanged
and no element destroyed. -/
theorem failure_atomicity (C : Nat) (b1 b2 : StaticRingBuffer α) (v : α)
    (hfull : increment C b1.m_tail = b1.m_head)
    (hempty : b2.m_head = b2.m_tail) :
    try_push C b1 v = (false, b1) ∧ try_push_move C b1 v = (false, b1) ∧
    try_emplace C b1 v = (false, b1) ∧ try_pop C b2 = (none, b2) ∧
    front b2 = none := by
  refine ⟨?_, ?_, ?_, ?_, ?_⟩
  · simp only [try_push, if_pos hfull]
  · simp only [try_push_move, if_pos hfull]
  · simp only [try_emplace, if_pos hfull]
  · simp only [try_pop, if_pos hempty]
  · simp only [front, if_pos hempty]

/-- Witness for C4 at Capacity 2 with a full buffer (head 0, tail 1) and the
freshly constructed empty buffer. -/
theorem failure_atomicity_witness :
    try_push 2 (⟨fun _ => none, 0, 1⟩ : StaticRingBuffer Nat) 5 =
      (false, (⟨fun _ => none, 0, 1⟩ : StaticRingBuffer Nat)) ∧
    try_push_move 2 (⟨fun _ => none, 0, 1⟩ : StaticRingBuffer Nat) 5 =
      (false, (⟨fun _ => none, 0, 1⟩ : StaticRingBuffer Nat)) ∧
    try_emplace 2 (⟨fun _ => none, 0, 1⟩ : StaticRingBuffer Nat) 5 =
      (false, (⟨fun _ => none, 0, 1⟩ : StaticRingBuffer Nat)) ∧
    try_pop 2 (init : StaticRingBuffer Nat) = (none, init) ∧
    front (init : StaticRingBuffer Nat) = none :=
  failure_atomicity 2 ⟨fun _ => none, 0, 1⟩ init 5 (by decide) rfl

/-- C10: Push-variant equivalence: for every buffer state and value,
`try_push` by copy, `try_push` by move, and `try_emplace` constructing the
same value run the same index protocol: same success flag and same resulting
state. -/
theorem push_variants_agree (C : Nat) (b : StaticRingBuffer α) (v : α) :
    try_push C b v = try_push_move C b v ∧
    try_push C b v = try_emplace C b v :=
  ⟨rfl, rfl⟩

/-- C6: Index-range invariant: starting from the initial state
head = tail = 0, after every sequence of API calls both head and tail lie in
`[0, Capacity)`, maintained by the modulo-Capacity increment. -/
theorem index_range_invariant (C : Nat) (hC : 2 ≤ C) (ops : List (Op α)) :
    (runOps C init ops).m_head < C ∧ (runOps C init ops).m_tail < C :=
  runOps_indices C (by omega) ops init (by simp [init]; omega)
    (by simp [init]; omega)

/-- Witness for C6 at Capacity 2 over a concrete call sequence. -/
theorem index_range_invariant_witness :
    (runOps 2 init [Op.push 1, Op.push 2, Op.pop, Op.clear,
      Op.push 3]).m_head < 2 ∧
    (runOps 2 init [Op.push 1, Op.push 2, Op.pop, Op.clear,
      Op.push 3]).m_tail < 2 :=
  index_range_invariant 2 (by omega) _

/-- C1: FIFO order: from any empty buffer state (head = tail, so also across
wraparound, at any cyclic start position with arbitrary stale slot contents),
`n ≤ Capacity − 1` `try_push` calls with values `v1 … vn` all succeed, the
following `n` `try_pop` calls return `Some v1 … Some vn` in exactly that
order, and the buffer is again an empty state with in-range head, so the
property iterates across arbitrarily many cycles (e.g. 10+ cycles of 3 pushes
and 3 pops at Capacity 4). -/
theorem fifo_order (C : Nat) (hC : 2 ≤ C) (b : StaticRingBuffer α)
    (hempty : b.m_head = b.m_tail) (hh : b.m_head < C) (vs : List α)
    (hlen : vs.length ≤ C - 1) :
    (pushAll C b vs).1 = List.replicate vs.length true ∧
    (popN C (pushAll C b vs).2 vs.length).1 = vs.map some ∧
    (popN C (pushAll C b vs).2 vs.length).2.m_head =
      (popN C (pushAll C b vs).2 vs.length).2.m_tail ∧
    (popN C (pushAll C b vs).2 vs.length).2.m_head < C := by
  have hseg0 : Seg C b.m_head ([] : List α) b := seg_of_empty C b hC hempty hh
  obtain ⟨hflags, hseg1⟩ := seg_pushAll C b.m_head [] vs b hC
    (by simpa using hlen) hseg0
  rw [List.nil_append] at hseg1
  obtain ⟨houts, hseg2⟩ := seg_popN C vs.length b.m_head vs
    (pushAll C b vs).2 hC hlen (le_refl _) hseg1
  obtain ⟨hh2, ht2, _⟩ := hseg2
  refine ⟨hflags, ?_, ?_, ?_⟩
  · simpa using houts
  · rw [hh2, ht2]
    simp
  · rw [hh2]
    exact Nat.mod_lt _ (by omega)

/-- Witness for C1: Capacity 4, starting from the fresh buffer, pushing and
popping three values. -/
theorem fifo_order_witness :
    (pushAll 4 (init : StaticRingBuffer Nat) [10, 20, 30]).1 =
      List.replicate 3 true ∧
    (popN 4 (pushAll 4 (init : StaticRingBuffer Nat) [10, 20, 30]).2 3).1 =
      [10, 20, 30].map some ∧
    (popN 4 (pushAll 4 (init : StaticRingBuffer Nat) [10, 20, 30]).2
        3).2.m_head =
      (popN 4 (pushAll 4 (init : StaticRingBuffer Nat) [10, 20, 30]).2
        3).2.m_tail ∧
    (popN 4 (pushAll 4 (init : StaticRingBuffer Nat) [10, 20, 30]).2
        3).2.m_head < 4 :=
  fifo_order 4 (by omega) init rfl (by decide) [10, 20, 30] (by decide)

/-- C2: Capacity bound: for every Capacity C ≥ 2, on a freshly constructed
buffer the first C − 1 consecutive `try_push` calls all return true and the
C-th `try_push` returns false, leaving the state unchanged; the live element
count thus never exceeds C − 1. -/
theorem capacity_bound (C : Nat) (hC : 2 ≤ C) (vs : List α)
    (hlen : vs.length = C - 1) (v : α) :
    (pushAll C init vs).1 = List.replicate (C - 1) true ∧
    try_push C (pushAll C init vs).2 v = (false, (pushAll C init vs).2) := by
  obtain ⟨hflags, hseg1⟩ := seg_pushAll C 0 [] vs init hC
    (by simpa using le_of_eq hlen) (seg_init C hC)
  rw [List.nil_append] at hseg1
  refine ⟨by rw [hflags, hlen], ?_⟩
  exact seg_try_push_full C 0 vs v (pushAll C init vs).2 hC hlen hseg1

/-- Witness for C2 at Capacity 3: both pushes succeed, the third fails. -/
theorem capacity_bound_witness :
    (pushAll 3 init [7, 8]).1 = List.replicate 2 true ∧
    try_push 3 (pushAll 3 (init : StaticRingBuffer Nat) [7, 8]).2 9 =
      (false, (pushAll 3 (init : StaticRingBuffer Nat) [7, 8]).2) :=
  capacity_bound 3 (by omega) [7, 8] rfl 9

/-- C5: Destruction accounting: pushing `k` elements (k ≤ Capacity − 1, so
all pushes succeed), popping `j < k` of them, then destroying the buffer
destroys each pushed element exactly once: the `j` successful pops each run
the element destructor once, and the buffer destructor drain loop runs it
`k − j` more times, totalling exactly `k` (no double-destroy, no leak). -/
theorem destructor_accounting (C : Nat) (hC : 2 ≤ C) (vs : List α) (j : Nat)
    (hlen : vs.length ≤ C - 1) (hj : j < vs.length) :
    (popN C (pushAll C init vs).2 j).1.countP Option.isSome +
      destructorCalls C (popN C (pushAll C init vs).2 j).2 = vs.length := by
  obtain ⟨hflags, hseg1⟩ := seg_pushAll C 0 [] vs init hC
    (by simpa using hlen) (seg_init C hC)
  rw [List.nil_append] at hseg1
  obtain ⟨houts, hseg2⟩ := seg_popN C j 0 vs (pushAll C init vs).2 hC hlen
    (by omega) hseg1
  have hcount : ((vs.take j).map some).countP Option.isSome = j := by
    rw [List.countP_map]
    have : (Option.isSome ∘ some) = fun (_ : α) => true := by
      funext x
      simp [Function.comp, Option.isSome]
    rw [this]
    simp [List.countP_true, List.length_take]
    omega
  have hdes : destructorCalls C (popN C (pushAll C init vs).2 j).2 =
      (vs.drop j).length :=
    seg_destructorCalls C (0 + j) (vs.drop j) _ hC
      (by rw [List.length_drop]; omega) hseg2
  rw [houts, hcount, hdes, List.length_drop]
  omega

/-- Witness for C5: Capacity 4, three pushes, one pop, then destruction:
three destructor calls in total. -/
theorem destructor_accounting_witness :
    (popN 4 (pushAll 4 (init : StaticRingBuffer Nat) [1, 2, 3]).2
        1).1.countP Option.isSome +
      destructorCalls 4
        (popN 4 (pushAll 4 (init : StaticRingBuffer Nat) [1, 2, 3]).2 1).2 =
      3 :=
  destructor_accounting 4 (by omega) [1, 2, 3] 1 (by decide) (by decide)

/-- C7: `front` is a pure peek returning an optional value: on every
reachable buffer state holding values `vs` it returns the first of `vs`,
it is the empty optional iff head equals tail, and it returns exactly the
value the next `try_pop` would return; it takes the state and returns only
a value, so it changes neither head nor tail nor any slot. -/
theorem front_peek (C start : Nat) (vs : List α) (b : StaticRingBuffer α)
    (hC : 2 ≤ C) (hlen : vs.length ≤ C - 1) (hseg : Seg C start vs b) :
    front b = vs.head? ∧ (front b = none ↔ b.m_head = b.m_tail) ∧
    front b = (try_pop C b).1 := by
  match vs with
  | [] =>
    have hpop := seg_try_pop_empty C start b hseg
    obtain ⟨hh, ht, _⟩ := hseg
    have heq : b.m_head = b.m_tail := by rw [hh, ht]; simp
    have hfront : front b = none := by simp only [front, if_pos heq]
    refine ⟨by rw [hfront]; rfl, by simp [hfront, heq], ?_⟩
    rw [hfront, hpop]
  | v :: tl =>
    obtain ⟨hh, ht, hs⟩ := hseg
    simp only [List.length_cons] at ht hlen
    have hne : b.m_head ≠ b.m_tail := by
      rw [hh, ht]
      exact (add_mod_ne C start (tl.length + 1) (by omega) (by omega)).symm
    have hv : b.m_storage b.m_head = some v := by
      have := hs 0 (by simp)
      simpa [hh] using this
    have hfront : front b = some v := by
      simp only [front, if_neg hne]
      exact hv
    refine ⟨by rw [hfront]; rfl, by simp [hfront, hne], ?_⟩
    rw [hfront]
    simp only [try_pop, if_neg hne]
    exact hv.symm

/-- Witness for C7: Capacity 3, a buffer holding exactly the value 7. -/
theorem front_peek_witness :
    front (⟨fun i => if i = 0 then some 7 else none, 0, 1⟩ :
        StaticRingBuffer Nat) = [7].head? ∧
    (front (⟨fun i => if i = 0 then some 7 else none, 0, 1⟩ :
        StaticRingBuffer Nat) = none ↔
      (⟨fun i => if i = 0 then some 7 else none, 0, 1⟩ :
        StaticRingBuffer Nat).m_head =
      (⟨fun i => if i = 0 then some 7 else none, 0, 1⟩ :
        StaticRingBuffer Nat).m_tail) ∧
    front (⟨fun i => if i = 0 then some 7 else none, 0, 1⟩ :
        StaticRingBuffer Nat) =
      (try_pop 3 (⟨fun i => if i = 0 then some 7 else none, 0, 1⟩ :
        StaticRingBuffer Nat)).1 :=
  front_peek 3 0 [7] ⟨fun i => if i = 0 then some 7 else none, 0, 1⟩
    (by omega) (by decide) ⟨rfl, rfl, by decide⟩

/-- C8: `size_approx` computes the cyclic distance: for every state with
head and tail in `[0, Capacity)` it returns `(tail − head) mod Capacity`
(as integers), and on every reachable single-threaded state holding values
`vs` it equals the exact number `vs.length` of live elements; it takes the
state and returns only a number, so it modifies nothing. -/
theorem size_approx_cyclic (C : Nat) (hC : 2 ≤ C) (b1 : StaticRingBuffer α)
    (h1 : b1.m_head < C) (h2 : b1.m_tail < C) (start : Nat) (vs : List α)
    (b2 : StaticRingBuffer α) (hseg : Seg C start vs b2)
    (hlen : vs.length ≤ C - 1) :
    (size_approx C b1 : Int) =
      ((b1.m_tail : Int) - (b1.m_head : Int)) % (C : Int) ∧
    size_approx C b2 = vs.length := by
  constructor
  · unfold size_approx
    rcases Nat.lt_or_ge b1.m_tail b1.m_head with hlt | hge
    · rw [if_neg (by omega)]
      have hval : ((b1.m_tail : Int) - (b1.m_head : Int)) % (C : Int) =
          (b1.m_tail : Int) - (b1.m_head : Int) + C := by
        rw [← Int.add_emod_self]
        exact Int.emod_eq_of_lt (by omega) (by omega)
      rw [hval]
      push_cast [Nat.le_of_lt (lt_trans hlt h1)]
      omega
    · rw [if_pos hge]
      have hval : ((b1.m_tail : Int) - (b1.m_head : Int)) % (C : Int) =
          (b1.m_tail : Int) - (b1.m_head : Int) :=
        Int.emod_eq_of_lt (by omega) (by omega)
      rw [hval]
      push_cast [hge]
      omega
  · obtain ⟨hh, ht, _⟩ := hseg
    have hlC : vs.length < C := by omega
    have ha : start % C < C := Nat.mod_lt _ (by omega)
    have hrw : (start + vs.length) % C = (start % C + vs.length) % C := by
      rw [Nat.add_mod, Nat.mod_eq_of_lt hlC]
    unfold size_approx
    rw [hh, ht, hrw]
    rcases Nat.lt_or_ge (start % C + vs.length) C with hlt | hge
    · rw [Nat.mod_eq_of_lt hlt]
      rw [if_pos (by omega)]
      omega
    · have ht2 : (start % C + vs.length) % C =
          start % C + vs.length - C := by
        rw [Nat.mod_eq_sub_mod hge, Nat.mod_eq_of_lt (by omega)]
      rw [ht2, if_neg (by omega)]
      omega

/-- Witness for C8: Capacity 4, a wrapped state (head 3, tail 1) for the
cyclic-distance formula and a buffer holding exactly the value 7 for the
exact-count part. -/
theorem size_approx_cyclic_witness :
    (size_approx 4 (⟨fun _ => none, 3, 1⟩ : StaticRingBuffer Nat) : Int) =
      (((⟨fun _ => none, 3, 1⟩ : StaticRingBuffer Nat).m_tail : Int) -
        ((⟨fun _ => none, 3, 1⟩ : StaticRingBuffer Nat).m_head : Int)) %
        ((4 : Nat) : Int) ∧
    size_approx 4 (⟨fun i => if i = 2 then some 7 else none, 2, 3⟩ :
        StaticRingBuffer Nat) = [7].length :=
  size_approx_cyclic 4 (by omega) ⟨fun _ => none, 3, 1⟩ (by decide)
    (by decide) 2 [7] ⟨fun i => if i = 2 then some 7 else none, 2, 3⟩
    ⟨rfl, rfl, by decide⟩ (by decide)

end Claims

end CrabLib
